import Mathlib

/-!
Verification development for the resumable-download core of
`chinaTextBookDownloader` (Go). The definitions below are a shallow
embedding of `main.go` (download engine), `web.go` (progress broadcast
hub and `/download` handler) and `config.go` translated into Lean:

* Go strings are modelled as `GoStr := List Nat` (byte/rune sequences;
  for the ASCII data manipulated here the two coincide).
* Machine integers (`int64`, `int`) are modelled as `Int`/`Nat`; none of
  the arithmetic in the source can overflow on the values reachable here.
* `float64` progress percentages are modelled as `ℚ` (the source only
  divides and multiplies small integers; rounding is not part of any
  claim).
* The HTTP response, the body stream and the tick/cancellation sources
  are explicit inputs: `resp.body` is the sequence of results of
  `resp.Body.Read`, `tick i` tells whether the 200 ms progress ticker
  has a pending tick at loop iteration `i`, and `cancelAt = some c`
  means the context's done-channel is closed from iteration `c` on.
* The progress-callback invocations of one run are collected in
  `RunOutcome.samples` (a `nil` callback in the source simply discards
  this sequence).
-/

namespace CTBD

/-- Go strings are byte strings; we model them as lists of naturals. -/
abbrev GoStr := List Nat

/-- Convert a Lean string literal to the modelled Go string (ASCII). -/
def gs (s : String) : GoStr := s.data.map Char.toNat

/-! ## Small Go string primitives (strings / strconv / net-url / path-filepath) -/

/-- `strings.ToLower` restricted to ASCII (the only case exercised here). -/
def toLowerGo (c : Nat) : Nat := if 65 ≤ c ∧ c ≤ 90 then c + 32 else c

/-- `strings.ToLower` on a whole string. -/
def goToLower (s : GoStr) : GoStr := s.map toLowerGo

/-- `strings.HasSuffix(s, v)`: Go defines it as
`len(s) >= len(v) && s[len(s)-len(v):] == v`. -/
def goHasSuffix (s v : GoStr) : Bool := v.length ≤ s.length && s.drop (s.length - v.length) == v

/-- `strings.Split(s, sep)` for a one-byte separator. -/
def goSplit (sep : Nat) : GoStr → List GoStr
  | [] => [[]]
  | c :: rest =>
    if c = sep then [] :: goSplit sep rest
    else
      match goSplit sep rest with
      | [] => [[c]]
      | h :: t => (c :: h) :: t

/-- A decimal digit byte. -/
def isDigitB (c : Nat) : Bool := 48 ≤ c ∧ c ≤ 57

/-- Numeric value of a decimal digit string. -/
def digitsVal (ds : GoStr) : Nat := ds.foldl (fun a c => 10 * a + (c - 48)) 0

/-- `strconv.ParseInt(s, 10, 64)`: optional sign, at least one decimal
digit, and the value must fit a signed 64-bit integer (overflow is an
error, so such segments are *not* recognised as numbers). -/
def goParseInt64 (s : GoStr) : Option Int :=
  let core : GoStr → Bool → Option Int := fun ds neg =>
    if ds = [] ∨ ¬ ds.all isDigitB then none
    else
      let v := digitsVal ds
      if neg then (if v ≤ 2 ^ 63 then some (-(v : Int)) else none)
      else (if v ≤ 2 ^ 63 - 1 then some (v : Int) else none)
  match s with
  | 43 :: rest => core rest false  -- leading +
  | 45 :: rest => core rest true   -- leading -
  | _ => core s false

/-- `ishex` from net/url: `0-9`, `a-f`, `A-F`. -/
def goIsHex (c : Nat) : Bool := (48 ≤ c ∧ c ≤ 57) ∨ (97 ≤ c ∧ c ≤ 102) ∨ (65 ≤ c ∧ c ≤ 70)

/-- `unhex` from net/url. -/
def hexVal (c : Nat) : Nat :=
  if c ≤ 57 then c - 48 else if c ≤ 70 then c - 65 + 10 else c - 97 + 10

/-- `url.PathUnescape`: decode `%XX` escapes; a `%` not followed by two
hex digits is an error (`none`). `+` is left unchanged in path mode. -/
def pathUnescape : GoStr → Option GoStr
  | [] => some []
  | c :: rest =>
    if c = 37 then  -- '%'
      match rest with
      | a :: b :: rest₂ =>
        if goIsHex a ∧ goIsHex b then
          (pathUnescape rest₂).map (fun u => (16 * hexVal a + hexVal b) :: u)
        else none
      | _ => none
    else (pathUnescape rest).map (fun u => c :: u)

/-- `filepath.Ext`: the suffix of the final path element starting at its
final dot (empty when the final element has no dot). -/
def goExt (s : GoStr) : GoStr :=
  let seg := s.reverse.takeWhile (fun c => c ≠ 47)   -- stop at '/'
  let upto := seg.takeWhile (fun c => c ≠ 46)        -- scan to the final '.'
  if upto.length = seg.length then [] else (upto ++ [46]).reverse

/-- `strings.TrimSuffix`. -/
def goTrimSuffix (s v : GoStr) : GoStr :=
  if goHasSuffix s v then s.take (s.length - v.length) else s

/-! ## `getDefaultFilename` (main.go)

`time.Now().Unix()` is nondeterministic, so the model takes the current
Unix time as an explicit argument `nowUnix`. -/

/-- `getDefaultFilename` from `main.go`, stage by stage:
last `/`-segment, query stripping, `.pdf` extension enforcement, empty
name replacement, `url.PathUnescape`, and removal of the
underscore-separated segments that parse as `int64`. -/
def getDefaultFilename (nowUnix : Nat) (fileUrl : GoStr) : GoStr :=
  let segments := goSplit 47 fileUrl                         -- '/'
  let filename0 := segments.getLastD []
  let filename1 :=
    if filename0.contains 63 then filename0.takeWhile (fun c => c ≠ 63) else filename0  -- '?'
  let filename2 :=
    if ¬ goHasSuffix (goToLower filename1) (gs ".pdf") then filename1 ++ gs ".pdf"
    else filename1
  let filename3 :=
    if filename2 = [] ∨ filename2 = gs ".pdf" then
      gs "download_" ++ gs (toString nowUnix) ++ gs ".pdf"
    else filename2
  let filename4 :=
    match pathUnescape filename3 with
    | some u => u
    | none => filename3
  if filename4.contains 95 then                              -- '_'
    let fex := goExt filename4
    let fname := goTrimSuffix filename4 fex
    let nameItems := goSplit 95 fname
    let newNameItems := nameItems.filter (fun item => ¬ (item = [] ∨ (goParseInt64 item).isSome))
    List.intercalate [95] newNameItems ++ fex
  else filename4

/-- The lowercase quad `.pdf`: `q2 q3 q4` lower to `p d f`. -/
def pdfTail (q2 q3 q4 : Nat) : Prop :=
  toLowerGo q2 = 112 ∧ toLowerGo q3 = 100 ∧ toLowerGo q4 = 102

instance (q2 q3 q4 : Nat) : Decidable (pdfTail q2 q3 q4) := by
  unfold pdfTail
  infer_instance

/-- The name ends in `.pdf`, case-insensitively. -/
def pdfSuffix (s : GoStr) : Prop :=
  ∃ t q2 q3 q4, s = t ++ [46, q2, q3, q4] ∧ pdfTail q2 q3 q4

/-! ## Data model of the engine -/

/-- The typed shapes of the `fmt.Errorf` failures of the engine
(`run(...) -> Result<void, DownloadError>` in the spec's terms):
`openFailed` 无法创建文件, `requestFailed` 创建请求失败/请求失败,
`serverError` 服务器返回错误状态码, `resumeUnsupported` 服务器不支持断点续传,
`badContentRange` 无效的 Content-Range 格式, `sizeParseFailed` 解析文件大小失败,
`sizeUnknown` 服务器未返回文件大小, `writeFailed` 写入文件失败,
`readFailed` 读取数据失败, `cancelled` 下载超时或被取消. -/
inductive DownloadError where
  | openFailed
  | requestFailed
  | serverError (code : Nat) (status : String)
  | resumeUnsupported
  | badContentRange (value : GoStr)
  | sizeParseFailed
  | sizeUnknown
  | writeFailed
  | readFailed
  | cancelled
  deriving DecidableEq

/-- One invocation of the progress callback
`(percent float64, downloaded int64, total int64)`. -/
structure Sample where
  percent : ℚ
  downloaded : Int
  total : Int
  deriving DecidableEq

/-- `percent := float64(downloaded) / float64(total) * 100` from the
source, with `float64` idealised as `ℚ`. -/
def mkSample (downloaded total : Int) : Sample :=
  ⟨(downloaded : ℚ) / (total : ℚ) * 100, downloaded, total⟩

/-- One result of `resp.Body.Read(buffer)`: the returned bytes paired
with the returned error. `chunk bs` is `(len bs, nil)`, `chunkEOF bs`
is `(len bs, io.EOF)` and `chunkErr bs` is `(len bs, err)` for a
non-EOF read error. `chunkEOF []`/`chunkErr []` model `(0, io.EOF)` and
`(0, err)`. -/
inductive BodyEv where
  | chunk (bs : List Nat)
  | chunkEOF (bs : List Nat)
  | chunkErr (bs : List Nat)
  deriving DecidableEq

/-- The bytes carried by a read result. -/
def BodyEv.bytes : BodyEv → List Nat
  | .chunk bs => bs
  | .chunkEOF bs => bs
  | .chunkErr bs => bs

/-- The parts of `*http.Response` the engine reads. `contentRange` is
the value of `resp.Header.Get("Content-Range")`, with `[]` (the empty
string) meaning the header is absent, exactly as `Header.Get` reports
it. `contentLength` is `resp.ContentLength` (`-1` when unknown). -/
structure HttpResponse where
  statusCode : Nat
  status : String
  contentRange : GoStr
  contentLength : Int
  body : List BodyEv
  deriving DecidableEq

/-- The `Config` struct from `config.go` (timeout parsing is glue the
claims never touch, so `Timeout` stays a plain string here). -/
structure Config where
  URL : String
  OutputDir : String
  OutputPath : String
  Timeout : String
  ChunkSize : Int
  Headers : List (String × String)

/-- Equality of `Except` results is decidable (needed to evaluate
concrete runs in the scenario theorems below). -/
instance {ε α : Type} [DecidableEq ε] [DecidableEq α] : DecidableEq (Except ε α) := fun a b =>
  match a, b with
  | .ok v₁, .ok v₂ =>
    if h : v₁ = v₂ then isTrue (by rw [h]) else isFalse (by intro hc; cases hc; exact h rfl)
  | .error e₁, .error e₂ =>
    if h : e₁ = e₂ then isTrue (by rw [h]) else isFalse (by intro hc; cases hc; exact h rfl)
  | .ok _, .error _ => isFalse (by intro hc; cases hc)
  | .error _, .ok _ => isFalse (by intro hc; cases hc)

/-- Result of one engine run: the returned error (if any), the final
destination-file contents, and the sequence of progress-callback
invocations. -/
structure RunOutcome where
  result : Except DownloadError Unit
  file : List Nat
  samples : List Sample
  deriving DecidableEq

/-! ## Request construction (headers) -/

/-- `http.Header.Get`: empty string when the key is absent. Go headers
are a map, so the model keeps at most one entry per key. -/
def headerGet (hs : List (String × String)) (k : String) : String :=
  match hs.lookup k with
  | some v => v
  | none => ""

/-- `http.Header.Set`: replace any existing value for the key. -/
def headerSet (hs : List (String × String)) (k v : String) : List (String × String) :=
  (k, v) :: hs.filter (fun p => p.1 ≠ k)

/-- `getDefaultHttpHeaders` from `config.go`. -/
def getDefaultHttpHeaders : List (String × String) :=
  [("Origin", "https://basic.smartedu.cn"),
   ("Referer", "https://basic.smartedu.cn/"),
   ("Priority", "u=1, i"),
   ("User-Agent", "Mozilla/5.0 (Windows NT 10.0; Win64; x64) AppleWebKit/537.36 (KHTML, like Gecko) Chrome/142.0.0.0 Safari/537.36")]

/-- Request headers of one run: caller headers are applied first
(`req.Header.Set(k, v)`), then each default only when the key is still
unset, then the `Range: bytes=<startPos>-` header when `startPos > 0`. -/
def buildRequestHeaders (callerHeaders : List (String × String)) (startPos : Int) :
    List (String × String) :=
  let h1 := callerHeaders.foldl (fun acc p => headerSet acc p.1 p.2) []
  let h2 := getDefaultHttpHeaders.foldl
    (fun acc p => if headerGet acc p.1 = "" then headerSet acc p.1 p.2 else acc) h1
  if startPos > 0 then headerSet h2 "Range" ("bytes=" ++ toString startPos ++ "-") else h2

/-! ## Response interpretation -/

/-- `getTotalFileSize` from `main.go`: a 206 response must carry a
`Content-Range` whose part after the single `/` parses as the total; any
other (2xx) response must carry a positive `ContentLength`, and the
total is `ContentLength + startPos`. -/
def getTotalFileSize (resp : HttpResponse) (startPos : Int) : Except DownloadError Int :=
  if resp.statusCode = 206 then
    if resp.contentRange = [] then .error .resumeUnsupported
    else
      match goSplit 47 resp.contentRange with  -- '/'
      | [_, b] =>
        match goParseInt64 b with
        | some n => .ok n
        | none => .error .sizeParseFailed
      | _ => .error (.badContentRange resp.contentRange)
  else if resp.contentLength ≤ 0 then .error .sizeUnknown
  else .ok (resp.contentLength + startPos)

/-! ## The download loop -/

/-- Whether the `select` on `ctx.Done()` at the top of iteration `i`
observes cancellation. -/
def cancelObserved (cancelAt : Option Nat) (i : Nat) : Bool :=
  match cancelAt with
  | none => false
  | some c => c ≤ i

/-- The read/write loop of `downloadPDFWithProgress`: per iteration,
check `ctx.Done()`; read; if bytes arrived, write them and (when a
ticker tick is pending) emit a progress sample; on `io.EOF` emit the
final sample and succeed; on any other read error fail. -/
def downloadLoop (tick : Nat → Bool) (cancelAt : Option Nat) (total : Int) :
    List BodyEv → Nat → List Nat → Int → List Sample → RunOutcome
  | events, i, file, downloaded, samples =>
    if cancelObserved cancelAt i then ⟨.error .cancelled, file, samples⟩
    else
      match events with
      | [] => ⟨.error .readFailed, file, samples⟩
      | ev :: rest =>
        let bs := ev.bytes
        let file' := file ++ bs
        let downloaded' := downloaded + bs.length
        let samples' :=
          if bs ≠ [] ∧ tick i then samples ++ [mkSample downloaded' total] else samples
        match ev with
        | .chunk _ => downloadLoop tick cancelAt total rest (i + 1) file' downloaded' samples'
        | .chunkEOF _ => ⟨.ok (), file', samples' ++ [mkSample downloaded' total]⟩
        | .chunkErr _ => ⟨.error .readFailed, file', samples'⟩

/-- `startPos`: the resume offset is the size of the existing
destination file (`0` for a newly created file). -/
def resumeOffset (initFile : List Nat) : Int :=
  if 0 < initFile.length then (initFile.length : Int) else 0

/-- `downloadPDFWithProgress` from `main.go` (the live branch;
`testMode` is the constant `false` in `config.go`). `initFile` is the
existing destination-file content (`[]` when absent — `O_CREATE` makes
an empty file), `resp = none` models a failed `client.Do`. The file
pointer is moved to `startPos` before the loop, so writes extend
`initFile` in place. -/
def downloadPDFWithProgress (config : Config) (initFile : List Nat)
    (resp : Option HttpResponse) (tick : Nat → Bool) (cancelAt : Option Nat) : RunOutcome :=
  let startPos := resumeOffset initFile
  match resp with
  | none => ⟨.error .requestFailed, initFile, []⟩
  | some resp =>
    if resp.statusCode < 200 ∨ 300 ≤ resp.statusCode then
      ⟨.error (.serverError resp.statusCode resp.status), initFile, []⟩
    else
      match getTotalFileSize resp startPos with
      | .error e => ⟨.error e, initFile, []⟩
      | .ok totalSize => downloadLoop tick cancelAt totalSize resp.body 0 initFile startPos []

/-! ## The `/download` handler's progress records (web.go) -/

/-- The fields of `DownloadProgress` the claims concern. `status` is the
source's string enumeration `pending / downloading / completed /
failed`; `errorMsg` holds the run's typed error when `status` is
`failed`. -/
structure DownloadProgress where
  percent : ℚ
  downloaded : Int
  total : Int
  status : String
  errorMsg : Option DownloadError
  deriving DecidableEq

/-- The sequence of records `handleDownload` broadcasts for one task:
the initial `pending` record, one `downloading` record per callback
invocation (the record is mutated in place, so each broadcast snapshots
the latest callback values), and the terminal record — `completed` with
`percent := 100` on success, `failed` with `percent := 0` and the error
message on failure, keeping the last callback's `downloaded`/`total`. -/
def sampleRecord (s : Sample) : DownloadProgress :=
  ⟨s.percent, s.downloaded, s.total, "downloading", none⟩

def handleDownloadBroadcasts (outcome : RunOutcome) : List DownloadProgress :=
  let initRec : DownloadProgress := ⟨0, 0, 0, "pending", none⟩
  let during := outcome.samples.map sampleRecord
  let lastRec := during.getLastD initRec
  let terminal :=
    match outcome.result with
    | .ok _ => { lastRec with status := "completed", percent := 100 }
    | .error e => { lastRec with status := "failed", percent := 0, errorMsg := some e }
  initRec :: (during ++ [terminal])

/-! ## The broadcast hub (web.go) -/

/-- A registered WebSocket client: `id` models connection identity (the
map key is the connection pointer), `broken` tells whether
`WriteMessage` on it fails. -/
structure WSConn where
  id : Nat
  broken : Bool
  deriving DecidableEq

/-- The delivery pass of `broadcastProgress`: walk the registered set;
a failing `WriteMessage` prints and `Close`s that connection and the
walk continues; a successful one delivers. Returns
`(delivered ids, closed ids)`. The function is total and returns no
error value: a delivery failure never propagates to the caller, and the
registered set itself is not modified here (`broadcastProgress` holds
only the read lock). -/
def broadcastDeliver : List WSConn → List Nat × List Nat
  | [] => ([], [])
  | c :: rest =>
    let r := broadcastDeliver rest
    if c.broken then (r.1, c.id :: r.2) else (c.id :: r.1, r.2)

/-- The cleanup performed by each connection's `handleWebSocket`
goroutine: a `Close`d connection's `ReadMessage` fails, the read loop
breaks, and the deferred block deletes the connection from `clients`. -/
def handleWebSocketCleanup (clients : List WSConn) (closed : List Nat) : List WSConn :=
  clients.filter (fun c => !(closed.contains c.id))

/-- A concrete configuration used by the scenario theorems below. -/
def cfgW : Config := ⟨"http://example.com/a.pdf", "out", "out/a.pdf", "30s", 4, []⟩

/-- Monotone `downloaded` across a sample sequence. -/
def samplesMono (ss : List Sample) : Prop :=
  List.Pairwise (fun a b => a.downloaded ≤ b.downloaded) ss

/-- Every sample's `downloaded` is a byte count at most `n`. -/
def samplesBound (ss : List Sample) (n : Int) : Prop :=
  ∀ s ∈ ss, 0 ≤ s.downloaded ∧ s.downloaded ≤ n

/-- Every sample carries the negotiated total and a recomputed percent. -/
def samplesForm (ss : List Sample) (total : Int) : Prop :=
  ∀ s ∈ ss, s.total = total ∧ s.percent = (s.downloaded : ℚ) / (s.total : ℚ) * 100

/-! # Helper lemmas -/

/-- The resume offset is exactly the existing file's size. -/
theorem resumeOffset_eq (f : List Nat) : resumeOffset f = (f.length : Int) := by
  unfold resumeOffset
  split <;> omega

/-- `Header.Get` after `Header.Set` of the same key yields the set value. -/
theorem headerGet_set (hs : List (String × String)) (k v : String) :
    headerGet (headerSet hs k v) k = v := by
  simp [headerGet, headerSet, List.lookup]

/-- `strings.HasSuffix` agrees with suffix decomposition. -/
theorem goHasSuffix_iff {s v : GoStr} : goHasSuffix s v = true ↔ ∃ t, s = t ++ v := by
  unfold goHasSuffix
  constructor
  · intro h
    rw [Bool.and_eq_true, decide_eq_true_eq, beq_iff_eq] at h
    refine ⟨s.take (s.length - v.length), ?_⟩
    conv_lhs => rw [← List.take_append_drop (s.length - v.length) s]
    rw [h.2]
  · rintro ⟨t, rfl⟩
    rw [Bool.and_eq_true, decide_eq_true_eq, beq_iff_eq]
    constructor
    · simp
    · simp

/-- A 206 response without a `Content-Range` header is rejected as
"server does not support resuming". -/
theorem getTotal_noRange (resp : HttpResponse) (startPos : Int)
    (h206 : resp.statusCode = 206) (hcr : resp.contentRange = []) :
    getTotalFileSize resp startPos = .error .resumeUnsupported := by
  unfold getTotalFileSize
  rw [if_pos h206, if_pos hcr]

/-! # Claims -/

/-- C4 counterexample: the claim says a 200 response's total equals the
content-length header value; with `Content-Length: 10` and a resume
offset of 3 the code computes `13`, not `10`. -/
theorem claim_C4_counterexample :
    getTotalFileSize ⟨200, "200 OK", [], 10, []⟩ 3 = .ok 13 ∧ (13 : Int) ≠ 10 := by
  constructor
  · decide
  · decide

/-- C4 (amended): for a 206 response the total is parsed from the
single-`/` `Content-Range`; a missing header fails with
`resumeUnsupported` before any bytes are written; for any other 2xx
response a non-positive `Content-Length` fails with `sizeUnknown`, and
otherwise the total is `Content-Length` *plus the resume offset*. -/
theorem claim_C4 :
    (∀ (resp : HttpResponse) (startPos : Int), resp.statusCode = 206 →
      resp.contentRange = [] → getTotalFileSize resp startPos = .error .resumeUnsupported)
    ∧ (∀ (config : Config) (initFile : List Nat) (resp : HttpResponse) (tick : Nat → Bool)
        (cancelAt : Option Nat), resp.statusCode = 206 → resp.contentRange = [] →
        downloadPDFWithProgress config initFile (some resp) tick cancelAt
          = ⟨.error .resumeUnsupported, initFile, []⟩)
    ∧ (∀ (resp : HttpResponse) (startPos : Int) (a b : GoStr), resp.statusCode = 206 →
        resp.contentRange ≠ [] → goSplit 47 resp.contentRange = [a, b] →
        getTotalFileSize resp startPos
          = match goParseInt64 b with
            | some n => .ok n
            | none => .error .sizeParseFailed)
    ∧ (∀ (resp : HttpResponse) (startPos : Int), resp.statusCode ≠ 206 →
        resp.contentLength ≤ 0 → getTotalFileSize resp startPos = .error .sizeUnknown)
    ∧ (∀ (resp : HttpResponse) (startPos : Int), resp.statusCode ≠ 206 →
        0 < resp.contentLength → getTotalFileSize resp startPos = .ok (resp.contentLength + startPos)) := by
  refine ⟨fun resp startPos h206 hcr => getTotal_noRange resp startPos h206 hcr,
    ?_, ?_, ?_, ?_⟩
  · intro config initFile resp tick cancelAt h206 hcr
    have hok : ¬ (resp.statusCode < 200 ∨ 300 ≤ resp.statusCode) := by omega
    simp only [downloadPDFWithProgress]
    rw [if_neg hok, getTotal_noRange resp _ h206 hcr]
  · intro resp startPos a b h206 hcr hsplit
    unfold getTotalFileSize
    rw [if_pos h206, if_neg hcr, hsplit]
  · intro resp startPos h206 hcl
    unfold getTotalFileSize
    rw [if_neg h206, if_pos hcl]
  · intro resp startPos h206 hcl
    unfold getTotalFileSize
    rw [if_neg h206, if_neg (by omega)]

/-- C4 witness: the four branches at concrete responses. -/
theorem claim_C4_witness :
    getTotalFileSize ⟨206, "206 Partial Content", [], -1, []⟩ 5 = .error .resumeUnsupported
    ∧ downloadPDFWithProgress cfgW [7] (some ⟨206, "206 Partial Content", [], -1, [.chunkEOF [1]]⟩)
        (fun _ => false) none = ⟨.error .resumeUnsupported, [7], []⟩
    ∧ getTotalFileSize ⟨206, "206 Partial Content", gs "bytes 0-/42", -1, []⟩ 0 = .ok 42
    ∧ getTotalFileSize ⟨200, "200 OK", [], -1, []⟩ 0 = .error .sizeUnknown
    ∧ getTotalFileSize ⟨200, "200 OK", [], 10, []⟩ 3 = .ok 13 :=
  ⟨claim_C4.1 _ _ rfl rfl,
   claim_C4.2.1 cfgW [7] _ (fun _ => false) none rfl rfl,
   (claim_C4.2.2.1 ⟨206, "206 Partial Content", gs "bytes 0-/42", -1, []⟩ 0
     (gs "bytes 0-") (gs "42") rfl (by decide) (by decide)).trans (by decide),
   claim_C4.2.2.2.1 _ 0 (by decide) (by decide),
   claim_C4.2.2.2.2 _ 3 (by decide) (by decide)⟩

/-- C5: a non-2xx status fails with a `serverError` carrying the code
and status text; the run returns before any write or callback, so the
file is unchanged and no progress sample is emitted; the handler then
broadcasts only the initial `pending` record and a terminal `failed`
record. -/
theorem claim_C5 (config : Config) (initFile : List Nat) (resp : HttpResponse)
    (tick : Nat → Bool) (cancelAt : Option Nat)
    (h : resp.statusCode < 200 ∨ 300 ≤ resp.statusCode) :
    downloadPDFWithProgress config initFile (some resp) tick cancelAt
      = ⟨.error (.serverError resp.statusCode resp.status), initFile, []⟩
    ∧ handleDownloadBroadcasts (downloadPDFWithProgress config initFile (some resp) tick cancelAt)
      = [⟨0, 0, 0, "pending", none⟩,
         ⟨0, 0, 0, "failed", some (.serverError resp.statusCode resp.status)⟩] := by
  have h1 : downloadPDFWithProgress config initFile (some resp) tick cancelAt
      = ⟨.error (.serverError resp.statusCode resp.status), initFile, []⟩ := by
    simp only [downloadPDFWithProgress]
    rw [if_pos h]
  exact ⟨h1, by rw [h1]; rfl⟩

/-- C5 witness: the spec's HTTP 403 scenario. -/
theorem claim_C5_witness :
    ((403 : Nat) < 200 ∨ (300 : Nat) ≤ 403)
    ∧ downloadPDFWithProgress cfgW [1, 2] (some ⟨403, "403 Forbidden", [], -1, []⟩)
        (fun _ => false) none
      = ⟨.error (.serverError 403 "403 Forbidden"), [1, 2], []⟩
    ∧ handleDownloadBroadcasts (downloadPDFWithProgress cfgW [1, 2]
        (some ⟨403, "403 Forbidden", [], -1, []⟩) (fun _ => false) none)
      = [⟨0, 0, 0, "pending", none⟩,
         ⟨0, 0, 0, "failed", some (.serverError 403 "403 Forbidden")⟩] :=
  ⟨by decide,
   (claim_C5 cfgW [1, 2] ⟨403, "403 Forbidden", [], -1, []⟩ (fun _ => false) none (by decide)).1,
   (claim_C5 cfgW [1, 2] ⟨403, "403 Forbidden", [], -1, []⟩ (fun _ => false) none (by decide)).2⟩

/-- The delivery pass delivers to exactly the non-broken connections,
in registration order (one failure does not abort the walk). -/
theorem broadcastDeliver_fst (clients : List WSConn) :
    (broadcastDeliver clients).1 = (clients.filter (fun c => !c.broken)).map WSConn.id := by
  induction clients with
  | nil => rfl
  | cons c rest ih =>
    simp only [broadcastDeliver, List.filter_cons]
    by_cases hb : c.broken
    · simp [hb, ih]
    · simp [hb, ih]

/-- The delivery pass closes exactly the broken connections. -/
theorem broadcastDeliver_snd (clients : List WSConn) :
    (broadcastDeliver clients).2 = (clients.filter (fun c => c.broken)).map WSConn.id := by
  induction clients with
  | nil => rfl
  | cons c rest ih =>
    simp only [broadcastDeliver, List.filter_cons]
    by_cases hb : c.broken
    · simp [hb, ih]
    · simp [hb, ih]

/-- C3: publishing one record attempts delivery to every registered
connection; the broken ones are closed (and, once each one's
`handleWebSocket` reader observes the close, removed — exactly those),
the rest all receive the record, and `broadcastDeliver` is a total
function returning no error, so no delivery failure reaches the
engine. -/
theorem claim_C3 (clients : List WSConn) (h : (clients.map WSConn.id).Nodup) :
    (broadcastDeliver clients).1 = (clients.filter (fun c => !c.broken)).map WSConn.id
    ∧ (broadcastDeliver clients).2 = (clients.filter (fun c => c.broken)).map WSConn.id
    ∧ handleWebSocketCleanup clients (broadcastDeliver clients).2
      = clients.filter (fun c => !c.broken) := by
  refine ⟨broadcastDeliver_fst clients, broadcastDeliver_snd clients, ?_⟩
  unfold handleWebSocketCleanup
  rw [broadcastDeliver_snd clients]
  apply List.filter_congr
  intro c hc
  have hmem : ((clients.filter (fun c => c.broken)).map WSConn.id).contains c.id = c.broken := by
    by_cases hb : c.broken
    · rw [hb]
      simp only [List.contains_eq_any_beq, List.any_eq_true]
      exact ⟨c.id, List.mem_map.mpr ⟨c, List.mem_filter.mpr ⟨hc, hb⟩, rfl⟩, by simp⟩
    · simp only [hb]
      rw [Bool.eq_false_iff]
      intro hcontains
      simp only [List.contains_eq_any_beq, List.any_eq_true] at hcontains
      obtain ⟨i, hi, hbeq⟩ := hcontains
      obtain ⟨c', hc', hid⟩ := List.mem_map.mp hi
      obtain ⟨hc'mem, hb'⟩ := List.mem_filter.mp hc'
      have hidc : c.id = i := by simpa using hbeq
      have : c' = c := by
        apply List.inj_on_of_nodup_map h hc'mem hc
        rw [hid, hidc]
      rw [this] at hb'
      exact hb (by simpa using hb')
  rw [hmem]

/-- C3 witness: the spec's three-observer scenario — one broken
connection is closed and removed, the other two receive the record. -/
theorem claim_C3_witness :
    ((([⟨0, false⟩, ⟨1, true⟩, ⟨2, false⟩] : List WSConn).map WSConn.id).Nodup)
    ∧ (broadcastDeliver [⟨0, false⟩, ⟨1, true⟩, ⟨2, false⟩]).1 = [0, 2]
    ∧ (broadcastDeliver [⟨0, false⟩, ⟨1, true⟩, ⟨2, false⟩]).2 = [1]
    ∧ handleWebSocketCleanup [⟨0, false⟩, ⟨1, true⟩, ⟨2, false⟩]
        (broadcastDeliver [⟨0, false⟩, ⟨1, true⟩, ⟨2, false⟩]).2
      = [⟨0, false⟩, ⟨2, false⟩] := by
  have h := claim_C3 [⟨0, false⟩, ⟨1, true⟩, ⟨2, false⟩] (by decide)
  exact ⟨by decide, h.1.trans (by decide), h.2.1.trans (by decide), h.2.2.trans (by decide)⟩

/-! # Loop lemmas -/

/-- Appending the sample of the current counters preserves the three
sample invariants. -/
theorem samples_step {ss : List Sample} {total : Int} (n m : Int)
    (hnm : n ≤ m) (h0 : 0 ≤ m)
    (h1 : samplesMono ss) (h2 : samplesBound ss n) (h3 : samplesForm ss total) :
    samplesMono (ss ++ [mkSample m total])
    ∧ samplesBound (ss ++ [mkSample m total]) m
    ∧ samplesForm (ss ++ [mkSample m total]) total := by
  refine ⟨?_, ?_, ?_⟩
  · rw [samplesMono, List.pairwise_append]
    refine ⟨h1, List.pairwise_singleton _ _, ?_⟩
    intro a ha b hb
    rw [List.mem_singleton] at hb
    subst hb
    exact le_trans (h2 a ha).2 hnm
  · intro s hs
    rcases List.mem_append.mp hs with hs | hs
    · exact ⟨(h2 s hs).1, le_trans (h2 s hs).2 hnm⟩
    · rw [List.mem_singleton] at hs
      subst hs
      exact ⟨h0, le_refl m⟩
  · intro s hs
    rcases List.mem_append.mp hs with hs | hs
    · exact h3 s hs
    · rw [List.mem_singleton] at hs
      subst hs
      exact ⟨rfl, rfl⟩

/-- Weakening the byte-count bound. -/
theorem samplesBound_mono {ss : List Sample} {n m : Int} (h : n ≤ m)
    (hb : samplesBound ss n) : samplesBound ss m :=
  fun s hs => ⟨(hb s hs).1, le_trans (hb s hs).2 h⟩

/-- Master invariant of the read/write loop, run with
`downloaded = file.length` (which the engine establishes by seeking to
the resume offset): samples stay monotone, nonnegative, bounded by the
final file size, and carry the recomputed percent; on success the
final sample is appended exactly once, at the final counters. -/
theorem downloadLoop_master (tick : Nat → Bool) (cancelAt : Option Nat) (total : Int) :
    ∀ (events : List BodyEv) (i : Nat) (file : List Nat) (samples : List Sample),
    samplesMono samples → samplesBound samples (file.length : Int) →
    samplesForm samples total →
    samplesMono (downloadLoop tick cancelAt total events i file (file.length : Int) samples).samples
    ∧ samplesBound (downloadLoop tick cancelAt total events i file (file.length : Int) samples).samples
        ((downloadLoop tick cancelAt total events i file (file.length : Int) samples).file.length : Int)
    ∧ samplesForm (downloadLoop tick cancelAt total events i file (file.length : Int) samples).samples total
    ∧ ((downloadLoop tick cancelAt total events i file (file.length : Int) samples).result = .ok () →
        ∃ pre, (downloadLoop tick cancelAt total events i file (file.length : Int) samples).samples
          = pre ++ [mkSample ((downloadLoop tick cancelAt total events i file (file.length : Int) samples).file.length : Int) total]) := by
  intro events
  induction events with
  | nil =>
    intro i file samples h1 h2 h3
    simp only [downloadLoop]
    cases hc : cancelObserved cancelAt i <;> simp [h1, h2, h3]
  | cons ev rest ih =>
    intro i file samples h1 h2 h3
    simp only [downloadLoop]
    cases hc : cancelObserved cancelAt i
    · simp only [Bool.false_eq_true, if_false]
      have hlen : ((file ++ ev.bytes).length : Int) = (file.length : Int) + (ev.bytes.length : Int) := by
        simp
      have hle : (file.length : Int) ≤ ((file ++ ev.bytes).length : Int) := by
        simp
      have hstep : samplesMono (if ev.bytes ≠ [] ∧ tick i
            then samples ++ [mkSample ((file.length : Int) + (ev.bytes.length : Int)) total] else samples)
          ∧ samplesBound (if ev.bytes ≠ [] ∧ tick i
            then samples ++ [mkSample ((file.length : Int) + (ev.bytes.length : Int)) total] else samples)
            (((file ++ ev.bytes).length : Int))
          ∧ samplesForm (if ev.bytes ≠ [] ∧ tick i
            then samples ++ [mkSample ((file.length : Int) + (ev.bytes.length : Int)) total] else samples) total := by
        by_cases hcond : ev.bytes ≠ [] ∧ tick i
        · rw [if_pos hcond]
          rw [← hlen]
          exact samples_step (file.length : Int) ((file ++ ev.bytes).length : Int)
            hle (by positivity) h1 h2 h3
        · rw [if_neg hcond]
          exact ⟨h1, samplesBound_mono hle h2, h3⟩
      match ev with
      | .chunk bs =>
        simp only [BodyEv.bytes] at hstep ⊢
        rw [show (file.length : Int) + (bs.length : Int) = ((file ++ bs).length : Int) by simp] at hstep ⊢
        exact ih (i + 1) (file ++ bs) _ hstep.1 hstep.2.1 hstep.2.2
      | .chunkEOF bs =>
        simp only [BodyEv.bytes] at hstep ⊢
        rw [show (file.length : Int) + (bs.length : Int) = ((file ++ bs).length : Int) by simp] at hstep ⊢
        have hfin := samples_step ((file ++ bs).length : Int) ((file ++ bs).length : Int)
          (le_refl _) (by positivity) hstep.1 hstep.2.1 hstep.2.2
        exact ⟨hfin.1, hfin.2.1, hfin.2.2, fun _ => ⟨_, rfl⟩⟩
      | .chunkErr bs =>
        simp only [BodyEv.bytes] at hstep ⊢
        rw [show (file.length : Int) + (bs.length : Int) = ((file ++ bs).length : Int) by simp] at hstep ⊢
        exact ⟨hstep.1, hstep.2.1, hstep.2.2, fun hok => by cases hok⟩
    · simp only [if_true]
      exact ⟨h1, h2, h3, fun hok => by cases hok⟩

/-- The loop only ever appends the bytes of consumed read results to
the file: the final file extends the initial one by the concatenation
of the bytes of a prefix of the read sequence. -/
theorem downloadLoop_file_shape (tick : Nat → Bool) (cancelAt : Option Nat) (total : Int) :
    ∀ (events : List BodyEv) (i : Nat) (file : List Nat) (downloaded : Int) (samples : List Sample),
    ∃ n, n ≤ events.length ∧
      (downloadLoop tick cancelAt total events i file downloaded samples).file
        = file ++ ((events.take n).map BodyEv.bytes).flatten := by
  intro events
  induction events with
  | nil =>
    intro i file downloaded samples
    refine ⟨0, le_refl 0, ?_⟩
    simp only [downloadLoop]
    cases hc : cancelObserved cancelAt i <;> simp
  | cons ev rest ih =>
    intro i file downloaded samples
    simp only [downloadLoop]
    cases hc : cancelObserved cancelAt i
    · simp only [Bool.false_eq_true, if_false]
      match ev with
      | .chunk bs =>
        obtain ⟨n, hn, hfile⟩ := ih (i + 1) (file ++ BodyEv.bytes (.chunk bs)) _ _
        refine ⟨n + 1, by simpa using hn, ?_⟩
        rw [hfile]
        simp [BodyEv.bytes, List.take_succ_cons]
      | .chunkEOF bs =>
        refine ⟨1, by simp, ?_⟩
        simp [BodyEv.bytes, List.take_succ_cons]
      | .chunkErr bs =>
        refine ⟨1, by simp, ?_⟩
        simp [BodyEv.bytes, List.take_succ_cons]
    · exact ⟨0, Nat.zero_le _, by simp⟩

/-- The bytes of a prefix of the read sequence are at most all the
delivered bytes. -/
theorem flatten_take_le (events : List BodyEv) :
    ∀ n, (((events.take n).map BodyEv.bytes).flatten).length
      ≤ (events.map (fun ev => ev.bytes.length)).sum := by
  induction events with
  | nil => intro n; simp
  | cons ev rest ih =>
    intro n
    cases n with
    | zero => simp
    | succ n =>
      rw [List.take_succ_cons]
      simp only [List.map_cons, List.flatten_cons, List.length_append, List.sum_cons]
      exact Nat.add_le_add (le_refl _) (ih n)

/-- If the first `c` read results are plain chunks and the
cancellation signal fires at iteration `c`, the loop stops there with
`cancelled`, keeping exactly the bytes already written. -/
theorem downloadLoop_cancel (tick : Nat → Bool) (total : Int) :
    ∀ (c : Nat) (events : List BodyEv) (i : Nat) (file : List Nat) (downloaded : Int)
      (samples : List Sample),
    c ≤ events.length →
    (∀ ev ∈ events.take c, ∃ bs, ev = BodyEv.chunk bs) →
    (downloadLoop tick (some (i + c)) total events i file downloaded samples).result
        = .error .cancelled
    ∧ (downloadLoop tick (some (i + c)) total events i file downloaded samples).file
        = file ++ ((events.take c).map BodyEv.bytes).flatten := by
  intro c
  induction c with
  | zero =>
    intro events i file downloaded samples _ _
    have hobs : cancelObserved (some (i + 0)) i = true := by simp [cancelObserved]
    cases events with
    | nil =>
      constructor <;> (simp only [downloadLoop]; rw [hobs]; try simp)
    | cons ev rest =>
      constructor <;> (simp only [downloadLoop]; rw [hobs]; try simp)
  | succ c ihc =>
    intro events i file downloaded samples hlen hall
    cases events with
    | nil => simp at hlen
    | cons ev rest =>
      obtain ⟨bs, rfl⟩ := hall ev (by rw [List.take_succ_cons]; exact List.mem_cons_self _ _)
      have hobs : cancelObserved (some (i + (c + 1))) i = false := by
        simp only [cancelObserved]
        rw [decide_eq_false_iff_not]
        omega
      have hrw : i + (c + 1) = (i + 1) + c := by omega
      have hrest := ihc rest (i + 1) (file ++ bs) (downloaded + (bs.length : Int))
        (if bs ≠ [] ∧ tick i then samples ++ [mkSample (downloaded + (bs.length : Int)) total]
          else samples)
        (by simpa using hlen)
        (fun e he => hall e (by rw [List.take_succ_cons]; exact List.mem_cons_of_mem _ he))
      constructor
      · simp only [downloadLoop]
        rw [hobs]
        simp only [Bool.false_eq_true, if_false, BodyEv.bytes]
        rw [hrw]
        exact hrest.1
      · simp only [downloadLoop]
        rw [hobs]
        simp only [Bool.false_eq_true, if_false, BodyEv.bytes]
        rw [hrw]
        exact hrest.2.trans (by simp [List.take_succ_cons, BodyEv.bytes])

/-- A body made of plain chunks followed by an EOF result, with no
cancellation, runs to success and writes exactly the delivered bytes. -/
theorem downloadLoop_chunks_eof (tick : Nat → Bool) (total : Int) :
    ∀ (cs : List (List Nat)) (bl : List Nat) (i : Nat) (file : List Nat) (downloaded : Int)
      (samples : List Sample),
    (downloadLoop tick none total (cs.map BodyEv.chunk ++ [BodyEv.chunkEOF bl])
        i file downloaded samples).result = .ok ()
    ∧ (downloadLoop tick none total (cs.map BodyEv.chunk ++ [BodyEv.chunkEOF bl])
        i file downloaded samples).file = file ++ (cs.flatten ++ bl) := by
  intro cs
  induction cs with
  | nil =>
    intro bl i file downloaded samples
    constructor
    · simp [downloadLoop, cancelObserved]
    · simp [downloadLoop, cancelObserved, BodyEv.bytes]
  | cons c0 cs ih =>
    intro bl i file downloaded samples
    have hrest := ih bl (i + 1) (file ++ c0) (downloaded + (c0.length : Int))
      (if c0 ≠ [] ∧ tick i then samples ++ [mkSample (downloaded + (c0.length : Int)) total]
        else samples)
    constructor
    · simp only [List.map_cons, List.cons_append, downloadLoop, cancelObserved,
        Bool.false_eq_true, if_false, BodyEv.bytes]
      exact hrest.1
    · simp only [List.map_cons, List.cons_append, downloadLoop, cancelObserved,
        Bool.false_eq_true, if_false, BodyEv.bytes]
      exact hrest.2.trans (by simp)

/-- Reduction of a run that passes the status check and size
negotiation to its read/write loop. -/
theorem dlp_loop_eq (config : Config) (initFile : List Nat) (resp : HttpResponse)
    (tick : Nat → Bool) (cancelAt : Option Nat) (total : Int)
    (hst : 200 ≤ resp.statusCode ∧ resp.statusCode < 300)
    (hsize : getTotalFileSize resp (resumeOffset initFile) = .ok total) :
    downloadPDFWithProgress config initFile (some resp) tick cancelAt
      = downloadLoop tick cancelAt total resp.body 0 initFile (resumeOffset initFile) [] := by
  simp only [downloadPDFWithProgress]
  rw [if_neg (by omega), hsize]

/-- Sample invariants of a whole run: samples are monotone, between 0
and the final file size, always carry the recomputed percent, and a
successful run's sample sequence ends with one final sample whose
`downloaded` is the final file size. -/
theorem dlp_samples (config : Config) (initFile : List Nat) (resp : Option HttpResponse)
    (tick : Nat → Bool) (cancelAt : Option Nat) :
    samplesMono (downloadPDFWithProgress config initFile resp tick cancelAt).samples
    ∧ samplesBound (downloadPDFWithProgress config initFile resp tick cancelAt).samples
        (((downloadPDFWithProgress config initFile resp tick cancelAt).file.length : Int))
    ∧ (∀ s ∈ (downloadPDFWithProgress config initFile resp tick cancelAt).samples,
        s.percent = (s.downloaded : ℚ) / (s.total : ℚ) * 100)
    ∧ ((downloadPDFWithProgress config initFile resp tick cancelAt).result = .ok () →
        ∃ pre s, (downloadPDFWithProgress config initFile resp tick cancelAt).samples = pre ++ [s]
          ∧ s.downloaded
            = ((downloadPDFWithProgress config initFile resp tick cancelAt).file.length : Int)) := by
  have hempty1 : samplesMono [] := List.Pairwise.nil
  have hempty2 : ∀ n : Int, samplesBound [] n := fun n s hs => by simp at hs
  have hempty3 : ∀ t : Int, samplesForm [] t := fun t s hs => by simp at hs
  cases resp with
  | none =>
    refine ⟨hempty1, hempty2 _, fun s hs => by simp [downloadPDFWithProgress] at hs, fun hok => ?_⟩
    simp [downloadPDFWithProgress] at hok
  | some r =>
    by_cases hst : r.statusCode < 200 ∨ 300 ≤ r.statusCode
    · have hrun : downloadPDFWithProgress config initFile (some r) tick cancelAt
          = ⟨.error (.serverError r.statusCode r.status), initFile, []⟩ := by
        simp only [downloadPDFWithProgress]
        rw [if_pos hst]
      rw [hrun]
      exact ⟨hempty1, hempty2 _, fun s hs => by simp at hs, fun hok => by simp at hok⟩
    · cases hsize : getTotalFileSize r (resumeOffset initFile) with
      | error e =>
        have hrun : downloadPDFWithProgress config initFile (some r) tick cancelAt
            = ⟨.error e, initFile, []⟩ := by
          simp only [downloadPDFWithProgress]
          rw [if_neg hst, hsize]
        rw [hrun]
        exact ⟨hempty1, hempty2 _, fun s hs => by simp at hs, fun hok => by simp at hok⟩
      | ok total =>
        rw [dlp_loop_eq config initFile r tick cancelAt total (by omega) hsize,
          resumeOffset_eq]
        have hm := downloadLoop_master tick cancelAt total r.body 0 initFile []
          hempty1 (hempty2 _) (hempty3 total)
        refine ⟨hm.1, hm.2.1, fun s hs => (hm.2.2.1 s hs).2, fun hok => ?_⟩
        obtain ⟨pre, hpre⟩ := hm.2.2.2 hok
        exact ⟨pre, _, hpre, rfl⟩

/-- C2 counterexample: the stream ends (in a read error) with one byte
downloaded, yet the run emits no sample at all — in particular no final
one —, contradicting "exactly once … regardless of whether the transfer
terminates in success or in error". -/
theorem claim_C2_counterexample :
    downloadPDFWithProgress cfgW [] (some ⟨200, "200 OK", [], 5, [.chunk [1], .chunkErr []]⟩)
      (fun _ => false) none = ⟨.error .readFailed, [1], []⟩ := by
  decide

/-- C2 (amended): on *successful* termination the engine emits exactly
one final sample, appended after the cadence-driven ones, with
`downloaded` equal to its true final value (the final file size); on
error termination the engine's callback is not invoked again — the
error is surfaced by the caller instead. -/
theorem claim_C2 (config : Config) (initFile : List Nat) (resp : Option HttpResponse)
    (tick : Nat → Bool) (cancelAt : Option Nat)
    (hok : (downloadPDFWithProgress config initFile resp tick cancelAt).result = .ok ()) :
    ∃ pre s, (downloadPDFWithProgress config initFile resp tick cancelAt).samples = pre ++ [s]
      ∧ s.downloaded = ((downloadPDFWithProgress config initFile resp tick cancelAt).file.length : Int) :=
  (dlp_samples config initFile resp tick cancelAt).2.2.2 hok

/-- C2 witness: a successful resumed run ends with a final sample whose
`downloaded` is the file's final size. -/
theorem claim_C2_witness :
    (downloadPDFWithProgress cfgW [1, 2, 3]
        (some ⟨206, "206 Partial Content", gs "bytes 3-/10", -1,
          [.chunk [4, 4, 4, 4], .chunkEOF [5, 5, 5]]⟩) (fun _ => false) none).result = .ok ()
    ∧ ∃ pre s, (downloadPDFWithProgress cfgW [1, 2, 3]
        (some ⟨206, "206 Partial Content", gs "bytes 3-/10", -1,
          [.chunk [4, 4, 4, 4], .chunkEOF [5, 5, 5]]⟩) (fun _ => false) none).samples = pre ++ [s]
      ∧ s.downloaded = ((downloadPDFWithProgress cfgW [1, 2, 3]
        (some ⟨206, "206 Partial Content", gs "bytes 3-/10", -1,
          [.chunk [4, 4, 4, 4], .chunkEOF [5, 5, 5]]⟩) (fun _ => false) none).file.length : Int) :=
  ⟨by decide,
   claim_C2 cfgW [1, 2, 3]
     (some ⟨206, "206 Partial Content", gs "bytes 3-/10", -1,
       [.chunk [4, 4, 4, 4], .chunkEOF [5, 5, 5]]⟩) (fun _ => false) none (by decide)⟩

/-- C1: with the destination already holding `k` bytes (`0 ≤ k < total`)
and a chunk size `> 0`, the resume offset is exactly `k`; when `k > 0`
the request carries `Range: bytes=k-`; and when the server streams the
remaining `total − k` bytes to a clean EOF the run succeeds with a
final file of exactly `total` bytes. -/
theorem claim_C1 (config : Config) (initFile : List Nat) (resp : HttpResponse)
    (tick : Nat → Bool) (total : Int) (cs : List (List Nat)) (bl : List Nat)
    (hchunk : 0 < config.ChunkSize)
    (htot : 0 ≤ total)
    (hk : (initFile.length : Int) < total)
    (hst : 200 ≤ resp.statusCode ∧ resp.statusCode < 300)
    (hsize : getTotalFileSize resp (resumeOffset initFile) = .ok total)
    (hbody : resp.body = cs.map BodyEv.chunk ++ [BodyEv.chunkEOF bl])
    (hsum : ((cs.flatten.length + bl.length : Nat) : Int) = total - (initFile.length : Int)) :
    resumeOffset initFile = (initFile.length : Int)
    ∧ (0 < initFile.length →
        headerGet (buildRequestHeaders config.Headers (resumeOffset initFile)) "Range"
          = "bytes=" ++ toString (resumeOffset initFile) ++ "-")
    ∧ (downloadPDFWithProgress config initFile (some resp) tick none).result = .ok ()
    ∧ ((downloadPDFWithProgress config initFile (some resp) tick none).file.length : Int) = total := by
  have hloop := downloadLoop_chunks_eof tick total cs bl 0 initFile (resumeOffset initFile) []
  have hrun := dlp_loop_eq config initFile resp tick none total hst hsize
  refine ⟨resumeOffset_eq initFile, ?_, ?_, ?_⟩
  · intro hpos
    unfold buildRequestHeaders
    rw [if_pos (by rw [resumeOffset_eq]; exact_mod_cast hpos)]
    exact headerGet_set _ _ _
  · rw [hrun, hbody]
    exact hloop.1
  · rw [hrun, hbody, hloop.2]
    simp only [List.length_append]
    push_cast
    push_cast at hsum
    omega

/-- C1 witness: the spec's resume scenario scaled down — 3 bytes
already present, total 10, range `bytes=3-`, 7 more bytes delivered. -/
theorem claim_C1_witness :
    resumeOffset [1, 2, 3] = 3
    ∧ headerGet (buildRequestHeaders cfgW.Headers (resumeOffset [1, 2, 3])) "Range" = "bytes=3-"
    ∧ (downloadPDFWithProgress cfgW [1, 2, 3]
        (some ⟨206, "206 Partial Content", gs "bytes 3-/10", -1,
          [.chunk [4, 4, 4, 4], .chunkEOF [5, 5, 6]]⟩) (fun _ => false) none).result = .ok ()
    ∧ ((downloadPDFWithProgress cfgW [1, 2, 3]
        (some ⟨206, "206 Partial Content", gs "bytes 3-/10", -1,
          [.chunk [4, 4, 4, 4], .chunkEOF [5, 5, 6]]⟩) (fun _ => false) none).file.length : Int) = 10 := by
  have h := claim_C1 cfgW [1, 2, 3]
    ⟨206, "206 Partial Content", gs "bytes 3-/10", -1, [.chunk [4, 4, 4, 4], .chunkEOF [5, 5, 6]]⟩
    (fun _ => false) 10 [[4, 4, 4, 4]] [5, 5, 6]
    (by decide) (by decide) (by decide) ⟨by decide, by decide⟩ (by decide) rfl (by decide)
  exact ⟨h.1.trans (by decide), (h.2.1 (by decide)).trans (by decide), h.2.2.1, h.2.2.2⟩

/-- C8: if cancellation is observed at loop iteration `c`, before the
stream has ended, the run fails with `cancelled` and the destination
file holds exactly the initial bytes plus the chunks written in the
`c` completed iterations — no truncation, no extra bytes — so a later
run can resume from it. -/
theorem claim_C8 (config : Config) (initFile : List Nat) (resp : HttpResponse)
    (tick : Nat → Bool) (c : Nat) (total : Int)
    (hst : 200 ≤ resp.statusCode ∧ resp.statusCode < 300)
    (hsize : getTotalFileSize resp (resumeOffset initFile) = .ok total)
    (hc : c ≤ resp.body.length)
    (hall : ∀ ev ∈ resp.body.take c, ∃ bs, ev = BodyEv.chunk bs) :
    (downloadPDFWithProgress config initFile (some resp) tick (some c)).result
      = .error .cancelled
    ∧ (downloadPDFWithProgress config initFile (some resp) tick (some c)).file
      = initFile ++ ((resp.body.take c).map BodyEv.bytes).flatten := by
  have hrun := dlp_loop_eq config initFile resp tick (some c) total hst hsize
  have hcancel := downloadLoop_cancel tick total c resp.body 0 initFile
    (resumeOffset initFile) [] hc hall
  simp only [Nat.zero_add] at hcancel
  exact ⟨by rw [hrun]; exact hcancel.1, by rw [hrun]; exact hcancel.2⟩

/-- C8 witness: cancelling after one 2-byte chunk of a resumed run
leaves exactly the prior byte plus the two flushed bytes. -/
theorem claim_C8_witness :
    (downloadPDFWithProgress cfgW [9]
        (some ⟨206, "206 Partial Content", gs "bytes 1-/10", -1, [.chunk [1, 2], .chunk [3]]⟩)
        (fun _ => false) (some 1)).result = .error .cancelled
    ∧ (downloadPDFWithProgress cfgW [9]
        (some ⟨206, "206 Partial Content", gs "bytes 1-/10", -1, [.chunk [1, 2], .chunk [3]]⟩)
        (fun _ => false) (some 1)).file = [9] ++ [1, 2] := by
  have h := claim_C8 cfgW [9]
    ⟨206, "206 Partial Content", gs "bytes 1-/10", -1, [.chunk [1, 2], .chunk [3]]⟩
    (fun _ => false) 1 10 ⟨by decide, by decide⟩ (by decide) (by decide)
    (by intro ev hev; simp at hev; exact ⟨[1, 2], hev⟩)
  exact ⟨h.1, h.2.trans (by decide)⟩

/-- C9 counterexample: the engine does not stop at `total` — a 206
response advertising a total of 10 whose body delivers 20 bytes onto a
3-byte file yields a 23-byte file, past `total`. -/
theorem claim_C9_counterexample :
    getTotalFileSize ⟨206, "206 Partial Content", gs "bytes 3-/10", -1,
        [.chunkEOF (List.replicate 20 7)]⟩ (resumeOffset [1, 2, 3]) = .ok 10
    ∧ (downloadPDFWithProgress cfgW [1, 2, 3]
        (some ⟨206, "206 Partial Content", gs "bytes 3-/10", -1,
          [.chunkEOF (List.replicate 20 7)]⟩) (fun _ => false) none).file.length = 23
    ∧ ¬ ((23 : Int) ≤ 10) := by
  refine ⟨by decide, by decide, by decide⟩

/-- C9 (amended): a run only ever appends to the destination file —
existing content below the resume point is never deleted or truncated,
and all writes land at or after the resume offset; the file stays
within `total` whenever the server delivers at most `total − offset`
bytes (the code has no guard of its own against over-delivery). -/
theorem claim_C9 (config : Config) (initFile : List Nat) (resp : Option HttpResponse)
    (tick : Nat → Bool) (cancelAt : Option Nat) :
    (∃ w, (downloadPDFWithProgress config initFile resp tick cancelAt).file = initFile ++ w)
    ∧ (∀ (r : HttpResponse) (total : Int), resp = some r →
        getTotalFileSize r (resumeOffset initFile) = .ok total →
        ((((r.body.map (fun ev => ev.bytes.length)).sum : Nat) : Int)
          ≤ total - (initFile.length : Int)) →
        ((downloadPDFWithProgress config initFile resp tick cancelAt).file.length : Int) ≤ total) := by
  cases resp with
  | none => exact ⟨⟨[], by simp [downloadPDFWithProgress]⟩, fun r total h => by cases h⟩
  | some r =>
    by_cases hst : r.statusCode < 200 ∨ 300 ≤ r.statusCode
    · have hrun : downloadPDFWithProgress config initFile (some r) tick cancelAt
          = ⟨.error (.serverError r.statusCode r.status), initFile, []⟩ := by
        simp only [downloadPDFWithProgress]
        rw [if_pos hst]
      refine ⟨⟨[], by rw [hrun]; simp⟩, fun r' total hr hsize hsum => ?_⟩
      cases hr
      rw [hrun]
      show ((initFile.length : Int)) ≤ total
      omega
    · cases hsize : getTotalFileSize r (resumeOffset initFile) with
      | error e =>
        have hrun : downloadPDFWithProgress config initFile (some r) tick cancelAt
            = ⟨.error e, initFile, []⟩ := by
          simp only [downloadPDFWithProgress]
          rw [if_neg hst, hsize]
        refine ⟨⟨[], by rw [hrun]; simp⟩, fun r' total hr hsize' hsum => ?_⟩
        cases hr
        rw [hsize'] at hsize
        cases hsize
      | ok total =>
        have hrun := dlp_loop_eq config initFile r tick cancelAt total (by omega) hsize
        obtain ⟨n, hn, hfile⟩ := downloadLoop_file_shape tick cancelAt total r.body 0 initFile
          (resumeOffset initFile) []
        refine ⟨⟨_, by rw [hrun]; exact hfile⟩, fun r' total' hr hsize' hsum => ?_⟩
        cases hr
        rw [hsize'] at hsize
        cases hsize
        rw [hrun, hfile]
        have hlen := flatten_take_le r.body n
        simp only [List.length_append]
        push_cast
        omega

/-- C9 witness: a conforming stream (exactly `total − offset` bytes)
appends to the prior content and stops exactly at `total`. -/
theorem claim_C9_witness :
    (∃ w, (downloadPDFWithProgress cfgW [8, 8]
        (some ⟨206, "206 Partial Content", gs "bytes 2-/6", -1, [.chunkEOF [1, 2, 3, 4]]⟩)
        (fun _ => false) none).file = [8, 8] ++ w)
    ∧ ((downloadPDFWithProgress cfgW [8, 8]
        (some ⟨206, "206 Partial Content", gs "bytes 2-/6", -1, [.chunkEOF [1, 2, 3, 4]]⟩)
        (fun _ => false) none).file.length : Int) ≤ 6 := by
  have h := claim_C9 cfgW [8, 8]
    (some ⟨206, "206 Partial Content", gs "bytes 2-/6", -1, [.chunkEOF [1, 2, 3, 4]]⟩)
    (fun _ => false) none
  exact ⟨h.1, h.2 ⟨206, "206 Partial Content", gs "bytes 2-/6", -1, [.chunkEOF [1, 2, 3, 4]]⟩
    6 rfl (by decide) (by decide)⟩

/-- `getLastD` of a nonempty list is a member. -/
theorem getLastD_mem {α : Type} : ∀ (l : List α) (d : α), l ≠ [] → l.getLastD d ∈ l
  | [], _, h => absurd rfl h
  | [a], _, _ => by simp
  | a :: b :: rest, d, _ => by
    rw [List.getLastD_cons]
    exact List.mem_cons_of_mem a (getLastD_mem (b :: rest) a (by simp))

/-- `getLastD` commutes with `map` on nonempty lists (defaults are
irrelevant there). -/
theorem getLastD_map_ne {α β : Type} (f : α → β) :
    ∀ (l : List α) (x : β) (y : α), l ≠ [] → (l.map f).getLastD x = f (l.getLastD y)
  | [], _, _, h => absurd rfl h
  | [a], _, _, _ => by simp
  | a :: b :: rest, x, y, _ => by
    rw [List.map_cons, List.getLastD_cons, List.getLastD_cons]
    exact getLastD_map_ne f (b :: rest) (f a) a (by simp)

/-- In a monotone sample list every `downloaded` is at most the last
one. -/
theorem samplesMono_le_last : ∀ (ss : List Sample), samplesMono ss → ∀ (x : Sample),
    ∀ s ∈ ss, s.downloaded ≤ (ss.getLastD x).downloaded
  | [], _, _, _, hs => absurd hs (by simp)
  | a :: rest, h, x, s, hs => by
    rw [List.getLastD_cons]
    rcases List.mem_cons.mp hs with h1 | hs
    · subst h1
      by_cases hr : rest = []
      · subst hr
        simp
      · exact (List.pairwise_cons.mp h).1 _ (getLastD_mem rest s hr)
    · exact samplesMono_le_last rest (List.pairwise_cons.mp h).2 a s hs

/-- `0 ≤ d ≤ t` keeps `d / t * 100` within `[0, 100]` (for `t = 0` the
quotient is `0`). -/
theorem percent_bounds (d t : Int) (hd : 0 ≤ d) (hdt : d ≤ t) :
    0 ≤ (d : ℚ) / (t : ℚ) * 100 ∧ (d : ℚ) / (t : ℚ) * 100 ≤ 100 := by
  have ht0 : 0 ≤ t := le_trans hd hdt
  rcases eq_or_lt_of_le ht0 with h0 | hpos
  · have hd0 : d = 0 := by omega
    subst hd0
    simp
  · have ht : (0 : ℚ) < (t : ℚ) := by exact_mod_cast hpos
    constructor
    · refine mul_nonneg (div_nonneg ?_ (le_of_lt ht)) (by norm_num)
      exact_mod_cast hd
    · have h1 : (d : ℚ) / (t : ℚ) ≤ 1 := by
        rw [div_le_one ht]
        exact_mod_cast hdt
      calc (d : ℚ) / (t : ℚ) * 100 ≤ 1 * 100 := by
            exact mul_le_mul_of_nonneg_right h1 (by norm_num)
        _ = 100 := by norm_num

/-- The broadcast list of any outcome is monotone in `downloaded`:
`pending` starts at 0, the `downloading` records replay the monotone
samples, and the terminal record repeats the last value. -/
theorem broadcasts_pairwise_aux (samples : List Sample) (flen : Int)
    (initRec T : DownloadProgress)
    (hinit : initRec.downloaded = 0)
    (hmono : samplesMono samples)
    (hbound : samplesBound samples flen)
    (hT : T.downloaded = ((samples.map sampleRecord).getLastD initRec).downloaded) :
    List.Pairwise (fun a b => a.downloaded ≤ b.downloaded)
      (initRec :: ((samples.map sampleRecord) ++ [T])) := by
  rw [List.pairwise_cons]
  constructor
  · intro b hb
    rw [hinit]
    rcases List.mem_append.mp hb with hb | hb
    · obtain ⟨s, hsmem, rfl⟩ := List.mem_map.mp hb
      exact (hbound s hsmem).1
    · rw [List.mem_singleton] at hb
      subst hb
      rw [hT]
      by_cases hnil : samples = []
      · subst hnil
        simp [hinit]
      · rw [getLastD_map_ne sampleRecord samples initRec (mkSample 0 0) hnil]
        exact (hbound _ (getLastD_mem samples (mkSample 0 0) hnil)).1
  · rw [List.pairwise_append]
    refine ⟨?_, List.pairwise_singleton _ _, ?_⟩
    · rw [List.pairwise_map]
      exact hmono
    · intro a ha b hb
      rw [List.mem_singleton] at hb
      subst hb
      rw [hT]
      obtain ⟨s, hsmem, rfl⟩ := List.mem_map.mp ha
      by_cases hnil : samples = []
      · subst hnil
        simp at hsmem
      · rw [getLastD_map_ne sampleRecord samples initRec (mkSample 0 0) hnil]
        exact samplesMono_le_last samples hmono (mkSample 0 0) s hsmem

/-- Shape of the `/download` handler's broadcast sequence for any
outcome whose samples satisfy the run invariants. -/
theorem broadcasts_shape (out : RunOutcome)
    (hmono : samplesMono out.samples)
    (hbound : samplesBound out.samples ((out.file.length : Int)))
    (hsucc : out.result = .ok () →
      ∃ pre s, out.samples = pre ++ [s] ∧ s.downloaded = ((out.file.length : Int))) :
    List.Pairwise (fun a b => a.downloaded ≤ b.downloaded) (handleDownloadBroadcasts out)
    ∧ ∃ pre t, handleDownloadBroadcasts out = pre ++ [t]
      ∧ (t.status = "completed" ∨ t.status = "failed")
      ∧ (∀ b ∈ pre, b.status = "pending" ∨ b.status = "downloading")
      ∧ (out.result = .ok () →
          t.status = "completed" ∧ t.downloaded = ((out.file.length : Int))) := by
  cases hres : out.result with
  | ok u =>
    cases u
    have hb_eq : handleDownloadBroadcasts out
        = (⟨0, 0, 0, "pending", none⟩ : DownloadProgress) :: ((out.samples.map sampleRecord)
          ++ [{ (out.samples.map sampleRecord).getLastD ⟨0, 0, 0, "pending", none⟩ with
                status := "completed", percent := 100 }]) := by
      simp only [handleDownloadBroadcasts, hres]
    obtain ⟨pre', s, hsamp, hd⟩ := hsucc hres
    have hlast : (out.samples.map sampleRecord).getLastD ⟨0, 0, 0, "pending", none⟩
        = sampleRecord s := by
      rw [hsamp, List.map_append]
      simp
    constructor
    · rw [hb_eq]
      exact broadcasts_pairwise_aux out.samples (out.file.length : Int) _ _ rfl hmono hbound rfl
    · refine ⟨(⟨0, 0, 0, "pending", none⟩ : DownloadProgress) :: (out.samples.map sampleRecord),
        { (out.samples.map sampleRecord).getLastD ⟨0, 0, 0, "pending", none⟩ with
          status := "completed", percent := 100 },
        by rw [hb_eq]; rfl, Or.inl rfl, ?_, fun _ => ⟨rfl, ?_⟩⟩
      · intro b hb
        rcases List.mem_cons.mp hb with h1 | hb
        · subst h1
          exact Or.inl rfl
        · obtain ⟨s', _, rfl⟩ := List.mem_map.mp hb
          exact Or.inr rfl
      · rw [show ({ (out.samples.map sampleRecord).getLastD ⟨0, 0, 0, "pending", none⟩ with
            status := "completed", percent := 100 } : DownloadProgress).downloaded
            = ((out.samples.map sampleRecord).getLastD ⟨0, 0, 0, "pending", none⟩).downloaded
          from rfl, hlast]
        exact hd
  | error e =>
    have hb_eq : handleDownloadBroadcasts out
        = (⟨0, 0, 0, "pending", none⟩ : DownloadProgress) :: ((out.samples.map sampleRecord)
          ++ [{ (out.samples.map sampleRecord).getLastD ⟨0, 0, 0, "pending", none⟩ with
                status := "failed", percent := 0, errorMsg := some e }]) := by
      simp only [handleDownloadBroadcasts, hres]
    constructor
    · rw [hb_eq]
      exact broadcasts_pairwise_aux out.samples (out.file.length : Int) _ _ rfl hmono hbound rfl
    · refine ⟨(⟨0, 0, 0, "pending", none⟩ : DownloadProgress) :: (out.samples.map sampleRecord),
        { (out.samples.map sampleRecord).getLastD ⟨0, 0, 0, "pending", none⟩ with
          status := "failed", percent := 0, errorMsg := some e },
        by rw [hb_eq]; rfl, Or.inr rfl, ?_, fun hok => ?_⟩
      · intro b hb
        rcases List.mem_cons.mp hb with h1 | hb
        · subst h1
          exact Or.inl rfl
        · obtain ⟨s', _, rfl⟩ := List.mem_map.mp hb
          exact Or.inr rfl
      · exact absurd hok (by simp)

/-- The percent field of every broadcast record, by status. -/
theorem broadcasts_percent_aux (out : RunOutcome)
    (hform : ∀ s ∈ out.samples, s.percent = (s.downloaded : ℚ) / (s.total : ℚ) * 100) :
    ∀ b ∈ handleDownloadBroadcasts out,
      (b.status = "downloading" → b.percent = (b.downloaded : ℚ) / (b.total : ℚ) * 100)
      ∧ (b.status = "pending" → b.percent = 0)
      ∧ (b.status = "completed" → b.percent = 100)
      ∧ (b.status = "failed" → b.percent = 0) := by
  intro b hb
  cases hres : out.result with
  | ok u =>
    simp only [handleDownloadBroadcasts, hres] at hb
    rcases List.mem_cons.mp hb with h1 | hb
    · subst h1
      exact ⟨fun h => by simp at h, fun _ => rfl,
        fun h => by simp at h, fun h => by simp at h⟩
    · rcases List.mem_append.mp hb with hb | hb
      · obtain ⟨s, hsmem, rfl⟩ := List.mem_map.mp hb
        exact ⟨fun _ => hform s hsmem, fun h => by simp [sampleRecord] at h,
          fun h => by simp [sampleRecord] at h, fun h => by simp [sampleRecord] at h⟩
      · rw [List.mem_singleton] at hb
        subst hb
        exact ⟨fun h => by simp at h, fun h => by simp at h,
          fun _ => rfl, fun h => by simp at h⟩
  | error e =>
    simp only [handleDownloadBroadcasts, hres] at hb
    rcases List.mem_cons.mp hb with h1 | hb
    · subst h1
      exact ⟨fun h => by simp at h, fun _ => rfl,
        fun h => by simp at h, fun h => by simp at h⟩
    · rcases List.mem_append.mp hb with hb | hb
      · obtain ⟨s, hsmem, rfl⟩ := List.mem_map.mp hb
        exact ⟨fun _ => hform s hsmem, fun h => by simp [sampleRecord] at h,
          fun h => by simp [sampleRecord] at h, fun h => by simp [sampleRecord] at h⟩
      · rw [List.mem_singleton] at hb
        subst hb
        exact ⟨fun h => by simp at h, fun h => by simp at h,
          fun h => by simp at h, fun _ => rfl⟩

/-- C6 counterexample: a transfer failing after one unsampled byte —
the last sample delivered for the task has `downloaded = 0` while the
destination file's final size is 1. -/
theorem claim_C6_counterexample :
    handleDownloadBroadcasts (downloadPDFWithProgress cfgW []
        (some ⟨200, "200 OK", [], 10, [.chunk [7], .chunkErr []]⟩) (fun _ => false) none)
      = [⟨0, 0, 0, "pending", none⟩, ⟨0, 0, 0, "failed", some .readFailed⟩]
    ∧ (downloadPDFWithProgress cfgW [] (some ⟨200, "200 OK", [], 10, [.chunk [7], .chunkErr []]⟩)
        (fun _ => false) none).file.length = 1
    ∧ (0 : Int) ≠ 1 :=
  ⟨by decide, by decide, by decide⟩

/-- C6 (amended): across the broadcast sequence of one transfer,
`downloaded` is monotonically non-decreasing and the terminal
(`completed`/`failed`) record is always the last one; when the transfer
*succeeds*, the terminal record's `downloaded` equals the destination
file's final size (a failed transfer's last record may lag behind the
file, since bytes written after the last emitted sample are never
reported). -/
theorem claim_C6 (config : Config) (initFile : List Nat) (resp : Option HttpResponse)
    (tick : Nat → Bool) (cancelAt : Option Nat) :
    List.Pairwise (fun a b => a.downloaded ≤ b.downloaded)
      (handleDownloadBroadcasts (downloadPDFWithProgress config initFile resp tick cancelAt))
    ∧ ∃ pre t, handleDownloadBroadcasts (downloadPDFWithProgress config initFile resp tick cancelAt)
        = pre ++ [t]
      ∧ (t.status = "completed" ∨ t.status = "failed")
      ∧ (∀ b ∈ pre, b.status = "pending" ∨ b.status = "downloading")
      ∧ ((downloadPDFWithProgress config initFile resp tick cancelAt).result = .ok () →
          t.status = "completed"
          ∧ t.downloaded
            = (((downloadPDFWithProgress config initFile resp tick cancelAt).file.length : Int))) := by
  obtain ⟨h1, h2, _, h4⟩ := dlp_samples config initFile resp tick cancelAt
  exact broadcasts_shape _ h1 h2 h4

/-- C6 witness: a successful run's broadcasts are monotone and end in
a `completed` record carrying the final file size. -/
theorem claim_C6_witness :
    (downloadPDFWithProgress cfgW [] (some ⟨200, "200 OK", [], 3, [.chunkEOF [1, 2, 3]]⟩)
        (fun _ => false) none).result = .ok ()
    ∧ List.Pairwise (fun a b => a.downloaded ≤ b.downloaded)
        (handleDownloadBroadcasts (downloadPDFWithProgress cfgW []
          (some ⟨200, "200 OK", [], 3, [.chunkEOF [1, 2, 3]]⟩) (fun _ => false) none))
    ∧ ∃ pre t, handleDownloadBroadcasts (downloadPDFWithProgress cfgW []
          (some ⟨200, "200 OK", [], 3, [.chunkEOF [1, 2, 3]]⟩) (fun _ => false) none)
        = pre ++ [t]
      ∧ (t.status = "completed" ∨ t.status = "failed")
      ∧ (∀ b ∈ pre, b.status = "pending" ∨ b.status = "downloading")
      ∧ ((downloadPDFWithProgress cfgW [] (some ⟨200, "200 OK", [], 3, [.chunkEOF [1, 2, 3]]⟩)
          (fun _ => false) none).result = .ok () →
          t.status = "completed"
          ∧ t.downloaded = (((downloadPDFWithProgress cfgW []
              (some ⟨200, "200 OK", [], 3, [.chunkEOF [1, 2, 3]]⟩)
              (fun _ => false) none).file.length : Int))) :=
  ⟨by decide,
   (claim_C6 cfgW [] (some ⟨200, "200 OK", [], 3, [.chunkEOF [1, 2, 3]]⟩) (fun _ => false) none).1,
   (claim_C6 cfgW [] (some ⟨200, "200 OK", [], 3, [.chunkEOF [1, 2, 3]]⟩) (fun _ => false) none).2⟩

/-- C7 counterexample: the terminal `failed` record sets `percent := 0`
independently — here `downloaded = 5`, `total = 10`, yet
`percent = 0 ≠ 100 * 5 / 10`. -/
theorem claim_C7_counterexample :
    (handleDownloadBroadcasts (downloadPDFWithProgress cfgW []
        (some ⟨200, "200 OK", [], 10, [.chunk [9, 9, 9, 9, 9], .chunkErr []]⟩)
        (fun _ => true) none)).getLastD ⟨0, 0, 0, "", none⟩
      = ⟨0, 5, 10, "failed", some .readFailed⟩
    ∧ (0 : ℚ) ≠ 100 * 5 / 10 :=
  ⟨by decide, by norm_num⟩

/-- C7 (amended): every `downloading` sample's percent is recomputed as
`downloaded / total * 100` (and lies in `[0, 100]` whenever
`0 ≤ downloaded ≤ total`); the initial `pending` record has percent 0;
terminal records override percent independently — `100` on `completed`,
`0` on `failed`. -/
theorem claim_C7 (config : Config) (initFile : List Nat) (resp : Option HttpResponse)
    (tick : Nat → Bool) (cancelAt : Option Nat) :
    ∀ b ∈ handleDownloadBroadcasts (downloadPDFWithProgress config initFile resp tick cancelAt),
      (b.status = "downloading" → b.percent = (b.downloaded : ℚ) / (b.total : ℚ) * 100
        ∧ (0 ≤ b.downloaded → b.downloaded ≤ b.total → 0 ≤ b.percent ∧ b.percent ≤ 100))
      ∧ (b.status = "pending" → b.percent = 0)
      ∧ (b.status = "completed" → b.percent = 100)
      ∧ (b.status = "failed" → b.percent = 0) := by
  intro b hb
  have h := broadcasts_percent_aux (downloadPDFWithProgress config initFile resp tick cancelAt)
    (dlp_samples config initFile resp tick cancelAt).2.2.1 b hb
  refine ⟨fun hst => ⟨h.1 hst, fun hd hdt => ?_⟩, h.2.1, h.2.2.1, h.2.2.2⟩
  rw [h.1 hst]
  exact percent_bounds b.downloaded b.total hd hdt

/-- C7 witness: the mid-transfer sample of a concrete successful run
satisfies the recomputation formula and the `[0, 100]` bounds. -/
theorem claim_C7_witness :
    (sampleRecord (mkSample 10 10)).percent
        = (((mkSample 10 10).downloaded : ℚ) / ((mkSample 10 10).total : ℚ) * 100)
    ∧ 0 ≤ (sampleRecord (mkSample 10 10)).percent
    ∧ (sampleRecord (mkSample 10 10)).percent ≤ 100 := by
  have hmem : sampleRecord (mkSample 10 10)
      ∈ handleDownloadBroadcasts (downloadPDFWithProgress cfgW [1, 2, 3]
        (some ⟨206, "206 Partial Content", gs "bytes 3-/10", -1, [.chunkEOF [4, 4, 4, 4, 4, 4, 4]]⟩)
        (fun _ => true) none) :=
    List.mem_cons_of_mem _ (List.mem_append_left _ (List.mem_cons_self _ _))
  have h := claim_C7 cfgW [1, 2, 3]
    (some ⟨206, "206 Partial Content", gs "bytes 3-/10", -1, [.chunkEOF [4, 4, 4, 4, 4, 4, 4]]⟩)
    (fun _ => true) none (sampleRecord (mkSample 10 10)) hmem
  have hd := h.1 rfl
  exact ⟨hd.1, (hd.2 (by decide) (by decide)).1, (hd.2 (by decide) (by decide)).2⟩

/-! # `getDefaultFilename` lemmas -/

/-- Only `.` itself lowercases to `.`. -/
theorem toLowerGo_dot {q : Nat} (h : toLowerGo q = 46) : q = 46 := by
  unfold toLowerGo at h
  split at h <;> omega

/-- Only `p`/`P` lowercase to `p`. -/
theorem toLowerGo_p {q : Nat} (h : toLowerGo q = 112) : q = 112 ∨ q = 80 := by
  unfold toLowerGo at h
  split at h <;> omega

/-- Only `d`/`D` lowercase to `d`. -/
theorem toLowerGo_d {q : Nat} (h : toLowerGo q = 100) : q = 100 ∨ q = 68 := by
  unfold toLowerGo at h
  split at h <;> omega

/-- Only `f`/`F` lowercase to `f`. -/
theorem toLowerGo_f {q : Nat} (h : toLowerGo q = 102) : q = 102 ∨ q = 70 := by
  unfold toLowerGo at h
  split at h <;> omega

/-- Anything ending in a `.pdf` quad has the pdf suffix. -/
theorem pdfSuffix_append {t : GoStr} {q2 q3 q4 : Nat} (h : pdfTail q2 q3 q4) :
    pdfSuffix (t ++ [46, q2, q3, q4]) :=
  ⟨t, q2, q3, q4, rfl, h⟩

/-- Appending the literal `".pdf"` yields the pdf suffix. -/
theorem pdfSuffix_append_pdf (t : GoStr) : pdfSuffix (t ++ gs ".pdf") := by
  have hpdf : gs ".pdf" = [46, 112, 100, 102] := by decide
  rw [hpdf]
  exact pdfSuffix_append (by decide)

/-- The source's suffix check (`HasSuffix(ToLower(f), ".pdf")`) implies
the pdf-suffix decomposition of `f` itself. -/
theorem pdfSuffix_of_lower {s : GoStr} (h : goHasSuffix (goToLower s) (gs ".pdf") = true) :
    pdfSuffix s := by
  rw [goHasSuffix_iff] at h
  obtain ⟨t, ht⟩ := h
  have hpdf : gs ".pdf" = [46, 112, 100, 102] := by decide
  rw [hpdf] at ht
  rw [goToLower, List.map_eq_append_iff] at ht
  obtain ⟨s₁, s₂, rfl, _, h2⟩ := ht
  rcases List.map_eq_cons_iff.mp h2 with ⟨q1, r1, rfl, hq1, h2⟩
  rcases List.map_eq_cons_iff.mp h2 with ⟨q2, r2, rfl, hq2, h2⟩
  rcases List.map_eq_cons_iff.mp h2 with ⟨q3, r3, rfl, hq3, h2⟩
  rcases List.map_eq_cons_iff.mp h2 with ⟨q4, r4, rfl, hq4, h2⟩
  have hr4 : r4 = [] := by simpa using h2
  subst hr4
  rw [toLowerGo_dot hq1]
  exact ⟨s₁, q2, q3, q4, rfl, hq2, hq3, hq4⟩

/-- The pdf suffix survives lowering: the result of
`getDefaultFilename` passes the source's own suffix check. -/
theorem pdfSuffix_lower {s : GoStr} (h : pdfSuffix s) :
    goHasSuffix (goToLower s) (gs ".pdf") = true := by
  obtain ⟨t, q2, q3, q4, rfl, ht⟩ := h
  rw [goHasSuffix_iff]
  refine ⟨goToLower t, ?_⟩
  have hpdf : gs ".pdf" = [46, 112, 100, 102] := by decide
  rw [hpdf]
  show (t ++ [46, q2, q3, q4]).map toLowerGo = t.map toLowerGo ++ [46, 112, 100, 102]
  rw [List.map_append]
  congr 1
  have h46 : toLowerGo 46 = 46 := by decide
  simp [h46, ht.1, ht.2.1, ht.2.2]

/-- One-step reduction of `pathUnescape` at a non-`%` byte. -/
theorem pathUnescape_consNe (c : Nat) (hc : c ≠ 37) (l : GoStr) :
    pathUnescape (c :: l) = (pathUnescape l).map (fun u => c :: u) := by
  conv_lhs => rw [pathUnescape.eq_def]
  simp only [if_neg hc]

/-- A percent-free string passes `PathUnescape` unchanged. -/
theorem pathUnescape_noPercent : ∀ (s : GoStr), (∀ c ∈ s, c ≠ 37) → pathUnescape s = some s
  | [], _ => rfl
  | c :: rest, h => by
    have hc : c ≠ 37 := h c (List.mem_cons_self _ _)
    rw [pathUnescape_consNe c hc]
    rw [pathUnescape_noPercent rest (fun x hx => h x (List.mem_cons_of_mem _ hx))]
    rfl

/-- The pdf-quad characters are not `%`. -/
theorem pdfTail_ne37 {q2 q3 q4 : Nat} (h : pdfTail q2 q3 q4) :
    q2 ≠ 37 ∧ q3 ≠ 37 ∧ q4 ≠ 37 := by
  obtain ⟨h2, h3, h4⟩ := h
  refine ⟨?_, ?_, ?_⟩
  · rcases toLowerGo_p h2 with rfl | rfl <;> omega
  · rcases toLowerGo_d h3 with rfl | rfl <;> omega
  · rcases toLowerGo_f h4 with rfl | rfl <;> omega

/-- One-step reduction of `pathUnescape` at a `%` with two following
bytes. -/
theorem pathUnescape_cons37 (a b : Nat) (l : GoStr) :
    pathUnescape (37 :: a :: b :: l)
      = if goIsHex a = true ∧ goIsHex b = true
        then (pathUnescape l).map (fun u => (16 * hexVal a + hexVal b) :: u)
        else none := rfl

/-- A successful `PathUnescape` cannot consume a trailing `.pdf` quad:
the first two of its four bytes (`.` and `p`/`P`) are not hex digits,
so any escape overlapping them is a decode error. -/
theorem pathUnescape_quad : ∀ (s u : GoStr) (q2 q3 q4 : Nat), pdfTail q2 q3 q4 →
    pathUnescape (s ++ [46, q2, q3, q4]) = some u → ∃ w, u = w ++ [46, q2, q3, q4]
  | [], u, q2, q3, q4, ht, h => by
    obtain ⟨hn2, hn3, hn4⟩ := pdfTail_ne37 ht
    rw [List.nil_append, pathUnescape_noPercent [46, q2, q3, q4] (by
      intro c hc
      rcases List.mem_cons.mp hc with rfl | hc
      · omega
      rcases List.mem_cons.mp hc with rfl | hc
      · exact hn2
      rcases List.mem_cons.mp hc with rfl | hc
      · exact hn3
      rcases List.mem_cons.mp hc with rfl | hc
      · exact hn4
      · simp at hc)] at h
    exact ⟨[], by injection h with h; rw [← h]; rfl⟩
  | c :: rest, u, q2, q3, q4, ht, h => by
    by_cases hc : c = 37
    · subst hc
      match rest, h with
      | [], h =>
        rw [List.cons_append, List.nil_append, pathUnescape_cons37,
          if_neg (fun hhex => absurd hhex.1 (by decide))] at h
        cases h
      | [a], h =>
        rw [List.cons_append, List.cons_append, List.nil_append, pathUnescape_cons37,
          if_neg (fun hhex => absurd hhex.2 (by decide))] at h
        cases h
      | a :: b :: rest₂, h =>
        rw [List.cons_append, List.cons_append, List.cons_append, pathUnescape_cons37] at h
        by_cases hhex : goIsHex a = true ∧ goIsHex b = true
        · rw [if_pos hhex] at h
          obtain ⟨u', hu', rfl⟩ : ∃ u', pathUnescape (rest₂ ++ [46, q2, q3, q4]) = some u'
              ∧ u = (16 * hexVal a + hexVal b) :: u' := by
            cases hpu : pathUnescape (rest₂ ++ [46, q2, q3, q4]) with
            | none => rw [hpu] at h; cases h
            | some u' =>
              rw [hpu] at h
              injection h with h
              exact ⟨u', rfl, h.symm⟩
          obtain ⟨w, rfl⟩ := pathUnescape_quad rest₂ u' q2 q3 q4 ht hu'
          exact ⟨(16 * hexVal a + hexVal b) :: w, rfl⟩
        · rw [if_neg hhex] at h
          cases h
    · rw [List.cons_append, pathUnescape_consNe c hc] at h
      obtain ⟨u', hu', rfl⟩ : ∃ u', pathUnescape (rest ++ [46, q2, q3, q4]) = some u'
          ∧ u = c :: u' := by
        cases hpu : pathUnescape (rest ++ [46, q2, q3, q4]) with
        | none => rw [hpu] at h; cases h
        | some u' =>
          rw [hpu] at h
          injection h with h
          exact ⟨u', rfl, h.symm⟩
      obtain ⟨w, rfl⟩ := pathUnescape_quad rest u' q2 q3 q4 ht hu'
      exact ⟨c :: w, rfl⟩

/-- `PathUnescape` preserves the pdf suffix. -/
theorem pdfSuffix_pathUnescape {s u : GoStr} (hs : pdfSuffix s)
    (h : pathUnescape s = some u) : pdfSuffix u := by
  obtain ⟨t, q2, q3, q4, rfl, ht⟩ := hs
  obtain ⟨w, rfl⟩ := pathUnescape_quad t u q2 q3 q4 ht h
  exact ⟨w, q2, q3, q4, rfl, ht⟩

/-- On a name with the pdf suffix, `filepath.Ext` is exactly its
`.pdf` quad. -/
theorem goExt_pdfSuffix {s : GoStr} (hs : pdfSuffix s) :
    ∃ q2 q3 q4, pdfTail q2 q3 q4 ∧ goExt s = [46, q2, q3, q4] := by
  obtain ⟨t, q2, q3, q4, rfl, ht⟩ := hs
  refine ⟨q2, q3, q4, ht, ?_⟩
  have h2 : q2 ≠ 47 ∧ q2 ≠ 46 := by
    rcases toLowerGo_p ht.1 with rfl | rfl <;> omega
  have h3 : q3 ≠ 47 ∧ q3 ≠ 46 := by
    rcases toLowerGo_d ht.2.1 with rfl | rfl <;> omega
  have h4 : q4 ≠ 47 ∧ q4 ≠ 46 := by
    rcases toLowerGo_f ht.2.2 with rfl | rfl <;> omega
  have hrev : (t ++ [46, q2, q3, q4]).reverse = q4 :: q3 :: q2 :: 46 :: t.reverse := by
    simp
  have hseg : (q4 :: q3 :: q2 :: 46 :: t.reverse).takeWhile (fun c => c ≠ 47)
      = q4 :: q3 :: q2 :: 46 :: t.reverse.takeWhile (fun c => c ≠ 47) := by
    simp [List.takeWhile_cons, h2.1, h3.1, h4.1]
  have hupto : (q4 :: q3 :: q2 :: 46 :: t.reverse.takeWhile (fun c => c ≠ 47)).takeWhile
      (fun c => c ≠ 46) = [q4, q3, q2] := by
    simp [List.takeWhile_cons, h2.2, h3.2, h4.2]
  simp only [goExt, hrev]
  rw [hseg, hupto]
  rw [if_neg (by simp)]
  simp

/-- C10 counterexample: a purely numeric underscore segment that
overflows `int64` (20 digits) is *not* removed — `strconv.ParseInt`
fails on it, so the code keeps it. -/
theorem claim_C10_counterexample :
    getDefaultFilename 0 (gs "h/a_12345678901234567890.pdf")
      = gs "a_12345678901234567890.pdf"
    ∧ (gs "12345678901234567890").all isDigitB = true
    ∧ gs "a_12345678901234567890.pdf" ≠ gs "a.pdf" :=
  ⟨by decide, by decide, by decide⟩

/-- C10 (amended): for every URL the derived name ends in `.pdf`
case-insensitively (it passes the source's own
`HasSuffix(ToLower(name), ".pdf")` check and decomposes as
`t ++ [. p d f]` up to case); and among underscore-separated segments
exactly those that parse as a *signed 64-bit integer* are removed —
an in-range numeral like `123` is dropped while an overflowing
20-digit numeral is kept. -/
theorem claim_C10 :
    (∀ (nowUnix : Nat) (fileUrl : GoStr),
      pdfSuffix (getDefaultFilename nowUnix fileUrl)
      ∧ goHasSuffix (goToLower (getDefaultFilename nowUnix fileUrl)) (gs ".pdf") = true)
    ∧ getDefaultFilename 0 (gs "h/a_123_12345678901234567890.pdf")
      = gs "a_12345678901234567890.pdf" := by
  constructor
  · intro nowUnix fileUrl
    have hmain : pdfSuffix (getDefaultFilename nowUnix fileUrl) := by
      have stage2 : ∀ f : GoStr,
          pdfSuffix (if ¬ goHasSuffix (goToLower f) (gs ".pdf") then f ++ gs ".pdf" else f) := by
        intro f
        by_cases h : goHasSuffix (goToLower f) (gs ".pdf") = true
        · rw [if_neg (by simp [h])]
          exact pdfSuffix_of_lower h
        · rw [if_pos (by simp [h])]
          exact pdfSuffix_append_pdf f
      have stage3 : ∀ f : GoStr, pdfSuffix f →
          pdfSuffix (if f = [] ∨ f = gs ".pdf"
            then gs "download_" ++ gs (toString nowUnix) ++ gs ".pdf" else f) := by
        intro f hf
        by_cases h : f = [] ∨ f = gs ".pdf"
        · rw [if_pos h]
          exact pdfSuffix_append_pdf _
        · rw [if_neg h]
          exact hf
      have stage4 : ∀ f : GoStr, pdfSuffix f →
          pdfSuffix (match pathUnescape f with | some u => u | none => f) := by
        intro f hf
        cases hpu : pathUnescape f with
        | none => exact hf
        | some u => exact pdfSuffix_pathUnescape hf hpu
      have stage5 : ∀ f : GoStr, pdfSuffix f →
          pdfSuffix (if f.contains 95 then
            List.intercalate [95] ((goSplit 95 (goTrimSuffix f (goExt f))).filter
              (fun item => ¬ (item = [] ∨ (goParseInt64 item).isSome))) ++ goExt f
          else f) := by
        intro f hf
        by_cases h : f.contains 95 = true
        · rw [if_pos h]
          obtain ⟨q2, q3, q4, ht, hext⟩ := goExt_pdfSuffix hf
          rw [hext]
          exact pdfSuffix_append ht
        · rw [if_neg h]
          exact hf
      show pdfSuffix (getDefaultFilename nowUnix fileUrl)
      unfold getDefaultFilename
      exact stage5 _ (stage4 _ (stage3 _ (stage2 _)))
    exact ⟨hmain, pdfSuffix_lower hmain⟩
  · decide

end CTBD
